import Mathlib

/-!
Verification of the coin/cache core of the `cmpm-121-demo-3` geocaching game
(`src/main.ts`).  The source file contains three concatenated revisions; the
definitions below embed the final revision (classes `PlayerInventory`, `Cache`,
functions `spawnCache`, `updateCacheVisibility`, `getPlayerCell`,
`regenerateCachesAroundPlayer`, `loadGameState`).  The first revision's
`getCell`/`spawnCache` pair (which mutates the shared flyweight cell objects)
is embedded separately in namespace `Demo3.Rev1`.

Numbers that the game manipulates as IEEE doubles are embedded as exact
rationals; the claims under study concern rounding direction, conservation and
idempotence, not float rounding error.
-/

namespace Demo3

/-- Source: `TILE_DEGREES = 1e-4` from `main.ts`. -/
def TILE_DEGREES : ℚ := 1 / 10000

/-- Source: `NEIGHBORHOOD_SIZE = 8` from `main.ts`. -/
def NEIGHBORHOOD_SIZE : ℤ := 8

/-- Source: `CACHE_SPAWN_PROBABILITY = 0.02` (final revision of `main.ts`). -/
def CACHE_SPAWN_PROBABILITY : ℚ := 2 / 100

/-- Source: `MAX_COINS_PER_CACHE = 3` from `main.ts`. -/
def MAX_COINS_PER_CACHE : ℤ := 3

/-- Source: `OAKES_CLASSROOM.lat = 36.989`. -/
def CLASSROOM_LAT : ℚ := 36989 / 1000

/-- Source: `OAKES_CLASSROOM.lng = -122.062`. -/
def CLASSROOM_LNG : ℚ := -122062 / 1000

/-! ## Player inventory (`class PlayerInventory`)

The inventory is a JS object mapping coin-identity strings to counts; JS
objects keep string keys in insertion order, so it is embedded as an
association list. -/

/-- The inventory representation: coin identity with its held count, in key
insertion order. -/
abbrev Inv := List (String × Nat)

/-- Count held for a coin identity: the value of the (unique) entry for that
key, 0 when absent (`this.inventory[coinId] || 0`). -/
def invCount (c : String) : Inv → Nat
  | [] => 0
  | (k, n) :: t => if k = c then n else invCount c t

/-- Source: `PlayerInventory.addItem`:
`this.inventory[coinId] = (this.inventory[coinId] || 0) + 1` — bump the
existing entry in place, or append a fresh entry with count 1. -/
def addItem (c : String) : Inv → Inv
  | [] => [(c, 1)]
  | (k, n) :: t => if k = c then (k, n + 1) :: t else (k, n) :: addItem c t

/-- Erase every entry for a key (`delete this.inventory[coinId]`; JS keys are
unique, so at most one entry is ever present). -/
def eraseKey (c : String) : Inv → Inv
  | [] => []
  | (k, n) :: t => if k = c then eraseKey c t else (k, n) :: eraseKey c t

/-- Source: `PlayerInventory.removeItem`:
`if (this.inventory[coinId]) { delete this.inventory[coinId]; }` — the whole
entry is deleted (regardless of its count) when the stored count is truthy,
i.e. nonzero. -/
def removeItem (c : String) (inv : Inv) : Inv :=
  if invCount c inv ≠ 0 then eraseKey c inv else inv

/-- Source: `Object.keys(playerInventory.getItems())[0]`: the first key in insertion
order (coin ids are non-index keys, so JS preserves insertion order). -/
def firstKey : Inv → Option String
  | [] => none
  | (k, _) :: _ => some k

/-! ## Caches and the collect/deposit operations (`class Cache`) -/

/-- Source: `this.coins = this.coins.filter((id) => id !== coinId)`: removes every
occurrence of the identity from the coin list. -/
def removeAll (c : String) : List String → List String
  | [] => []
  | x :: t => if x = c then removeAll c t else x :: removeAll c t

/-- Occurrences of a coin identity in a cache's coin list. -/
def countS (c : String) : List String → Nat
  | [] => 0
  | x :: t => (if x = c then 1 else 0) + countS c t

/-- Replace the element at an index, leaving the list unchanged when the index
is out of range. -/
def modifyIdx (f : List String → List String) : Nat → List (List String) → List (List String)
  | _, [] => []
  | 0, a :: t => f a :: t
  | n + 1, a :: t => a :: modifyIdx f n t

/-- The coin-relevant game state: the player inventory plus the coin lists of
all caches in `cacheStorage` (in some fixed enumeration order). -/
structure GState where
  inv : Inv
  caches : List (List String)
  deriving DecidableEq

/-- A collect or deposit command, aimed at the cache at a given index.  These
are the two mutations the `Cache.bindPopup` closures perform. -/
inductive Op where
  | collect (cacheIdx : Nat) (coinId : String)
  | deposit (cacheIdx : Nat)
  deriving DecidableEq

/-- Source: `onCollect` from `Cache.bindPopup`:
`this.coins = this.coins.filter((id) => id !== coinId); playerInventory.addItem(coinId);`
The inventory increment is unconditional — it happens even when the coin was
not present in the cache.  Ops aimed at a nonexistent cache index cannot arise
in the source (each closure belongs to a live `Cache`) and are no-ops here. -/
def applyOp (op : Op) (s : GState) : GState :=
  match op with
  | .collect idx c =>
      if idx < s.caches.length then
        { inv := addItem c s.inv, caches := modifyIdx (removeAll c) idx s.caches }
      else s
  | .deposit idx =>
      match firstKey s.inv with
      | none => s
      | some d =>
          if idx < s.caches.length then
            { inv := removeItem d s.inv, caches := modifyIdx (fun l => l ++ [d]) idx s.caches }
          else s

/-- Run a sequence of collect/deposit operations. -/
def applyOps (ops : List Op) (s : GState) : GState :=
  ops.foldl (fun st op => applyOp op st) s

/-- The spec formula `inventoryCount(coin) + sum(cacheCount(coin) over all caches)`. -/
def totalCount (c : String) (s : GState) : Nat :=
  invCount c s.inv + (s.caches.map (countS c)).sum

/-- Inventory well-formedness: every stored entry has count at least 1.  This
holds for every inventory the source ever builds: `addItem` stores `n + 1` and
`removeItem` only deletes entries. -/
def WFInv (inv : Inv) : Prop := ∀ kv ∈ inv, 1 ≤ kv.2

instance (inv : Inv) : Decidable (WFInv inv) := by
  unfold WFInv; infer_instance

/-- Predicate `SafeFor c s op`: the operation does not mint a coin of identity `c` in
state `s` — a collect aimed at identity `c` only happens at a cache that
currently holds `c`.  (In the source, `onCollect` on an absent coin still
increments the inventory, creating a fresh occurrence.) -/
def SafeFor (c : String) (s : GState) : Op → Prop
  | .collect idx d =>
      (d = c ∧ idx < s.caches.length) → c ∈ s.caches.getD idx []
  | .deposit _ => True

instance (c : String) (s : GState) (op : Op) : Decidable (SafeFor c s op) := by
  cases op <;> (unfold SafeFor; infer_instance)

/-- Predicate `SafeOps c s ops`: along the run from `s`, no operation mints a coin of
identity `c`. -/
def SafeOps (c : String) : GState → List Op → Prop
  | _, [] => True
  | s, op :: ops => SafeFor c s op ∧ SafeOps c (applyOp op s) ops

instance (c : String) (s : GState) (ops : List Op) : Decidable (SafeOps c s ops) := by
  induction ops generalizing s with
  | nil => exact .isTrue trivial
  | cons op ops ih =>
      simp only [SafeOps]
      exact @instDecidableAnd _ _ _ (ih _)

/-! ### Counting lemmas for the conservation argument -/

lemma countS_removeAll_self (c : String) (l : List String) :
    countS c (removeAll c l) = 0 := by
  induction l with
  | nil => rfl
  | cons x t ih =>
      by_cases hx : x = c <;> simp [removeAll, countS, hx, ih]

lemma countS_removeAll_ne (c d : String) (h : c ≠ d) (l : List String) :
    countS c (removeAll d l) = countS c l := by
  induction l with
  | nil => rfl
  | cons x t ih =>
      by_cases hx : x = d
      · subst hx; simp [removeAll, countS, ih, Ne.symm h]
      · by_cases hc : x = c <;> simp [removeAll, countS, hx, hc, h, ih]

lemma countS_append (c : String) (l m : List String) :
    countS c (l ++ m) = countS c l + countS c m := by
  induction l with
  | nil => simp [countS]
  | cons x t ih => simp [countS, ih]; omega

lemma countS_pos_of_mem {c : String} {l : List String} (h : c ∈ l) :
    1 ≤ countS c l := by
  induction l with
  | nil => cases h
  | cons x t ih =>
      rcases List.mem_cons.mp h with h | h
      · simp [countS, h.symm]
      · have := ih h; simp [countS]; omega

lemma invCount_addItem (c d : String) (inv : Inv) :
    invCount c (addItem d inv) = invCount c inv + (if d = c then 1 else 0) := by
  induction inv with
  | nil => simp [addItem, invCount]
  | cons kv t ih =>
      obtain ⟨k, n⟩ := kv
      by_cases hk : k = d
      · subst hk
        by_cases hc : k = c <;> simp [addItem, invCount, hc]
      · by_cases hc : k = c
        · have hdc : ¬ d = c := fun hh => hk (hc.trans hh.symm)
          have hcd : ¬ c = d := fun hh => hdc hh.symm
          simp [addItem, invCount, hk, hc, hdc, hcd]
        · simp [addItem, invCount, hk, hc, ih]

lemma invCount_eraseKey_self (c : String) (inv : Inv) :
    invCount c (eraseKey c inv) = 0 := by
  induction inv with
  | nil => rfl
  | cons kv t ih =>
      obtain ⟨k, n⟩ := kv
      by_cases hk : k = c <;> simp [eraseKey, invCount, hk, ih]

lemma invCount_eraseKey_ne (c d : String) (h : c ≠ d) (inv : Inv) :
    invCount c (eraseKey d inv) = invCount c inv := by
  induction inv with
  | nil => rfl
  | cons kv t ih =>
      obtain ⟨k, n⟩ := kv
      by_cases hk : k = d
      · subst hk; simp [eraseKey, invCount, Ne.symm h, ih]
      · by_cases hc : k = c <;> simp [eraseKey, invCount, hk, hc, h, ih]

lemma invCount_removeItem (c d : String) (inv : Inv) :
    invCount c (removeItem d inv) = if d = c then 0 else invCount c inv := by
  unfold removeItem
  by_cases hd : invCount d inv ≠ 0
  · by_cases hc : d = c
    · subst hc; simp [hd, invCount_eraseKey_self]
    · simp [hd, hc, invCount_eraseKey_ne c d (fun h => hc h.symm)]
  · by_cases hc : d = c
    · subst hc; simpa [hd] using (not_not.mp hd).symm ▸ by simp [hd]
    · simp [hd, hc]

lemma WFInv_addItem {inv : Inv} (h : WFInv inv) (d : String) : WFInv (addItem d inv) := by
  induction inv with
  | nil =>
      intro kv hkv
      simp [addItem] at hkv
      simp [hkv]
  | cons kv0 t ih =>
      obtain ⟨k, n⟩ := kv0
      have ht : WFInv t := fun kv hkv => h kv (List.mem_cons_of_mem _ hkv)
      have hh : 1 ≤ n := h (k, n) (List.mem_cons_self _ _)
      intro kv hkv
      by_cases hk : k = d
      · simp [addItem, hk] at hkv
        rcases hkv with hkv | hkv
        · simp [hkv]
        · exact ht kv hkv
      · simp [addItem, hk] at hkv
        rcases hkv with hkv | hkv
        · simp [hkv]; omega
        · exact ih ht kv hkv

lemma WFInv_eraseKey {inv : Inv} (h : WFInv inv) (d : String) :
    WFInv (eraseKey d inv) := by
  induction inv with
  | nil => intro kv hkv; cases hkv
  | cons kv0 t ih =>
      obtain ⟨k, n⟩ := kv0
      have ht : WFInv t := fun kv hkv => h kv (List.mem_cons_of_mem _ hkv)
      by_cases hk : k = d
      · simpa [eraseKey, hk] using ih ht
      · intro kv hkv
        simp [eraseKey, hk] at hkv
        rcases hkv with hkv | hkv
        · exact hkv ▸ h (k, n) (List.mem_cons_self _ _)
        · exact ih ht kv hkv

lemma WFInv_removeItem {inv : Inv} (h : WFInv inv) (d : String) :
    WFInv (removeItem d inv) := by
  unfold removeItem
  split
  · exact WFInv_eraseKey h d
  · exact h

lemma invCount_pos_of_firstKey {inv : Inv} {d : String} (hwf : WFInv inv)
    (h : firstKey inv = some d) : 1 ≤ invCount d inv := by
  cases inv with
  | nil => cases h
  | cons kv t =>
      obtain ⟨k, n⟩ := kv
      simp [firstKey] at h
      subst h
      have := hwf (k, n) (List.mem_cons_self _ _)
      simpa [invCount] using this

lemma sum_map_modifyIdx (f : List String → List String) (c : String) :
    ∀ (l : List (List String)) (n : Nat), n < l.length →
      ((modifyIdx f n l).map (countS c)).sum + countS c (l.getD n []) =
        (l.map (countS c)).sum + countS c (f (l.getD n [])) := by
  intro l
  induction l with
  | nil => intro n hn; simp at hn
  | cons a t ih =>
      intro n hn
      cases n with
      | zero => simp [modifyIdx]; omega
      | succ m =>
          have hm : m < t.length := by simpa using hn
          have := ih m hm
          simp only [modifyIdx, List.map_cons, List.sum_cons, List.getD_cons_succ]
          omega

lemma getD_le_sum (c : String) :
    ∀ (l : List (List String)) (n : Nat), n < l.length →
      countS c (l.getD n []) ≤ (l.map (countS c)).sum := by
  intro l
  induction l with
  | nil => intro n hn; simp at hn
  | cons a t ih =>
      intro n hn
      cases n with
      | zero => simp
      | succ m =>
          have hm : m < t.length := by simpa using hn
          have := ih m hm
          simp only [List.getD_cons_succ, List.map_cons, List.sum_cons]
          omega

lemma countS_singleton (c d : String) :
    countS c [d] = if d = c then 1 else 0 := by
  simp [countS]

/-- One collect or deposit step conserves the total for `c` and preserves
inventory well-formedness, provided the step does not mint `c` and the total
is at most 1. -/
lemma step_conservation (c : String) (s : GState) (op : Op)
    (hwf : WFInv s.inv) (hle : totalCount c s ≤ 1) (hsafe : SafeFor c s op) :
    totalCount c (applyOp op s) = totalCount c s ∧ WFInv (applyOp op s).inv := by
  cases op with
  | collect idx d =>
      by_cases hidx : idx < s.caches.length
      · simp only [applyOp, if_pos hidx]
        refine ⟨?_, WFInv_addItem hwf d⟩
        unfold totalCount at hle ⊢
        simp only
        have hmod := sum_map_modifyIdx (removeAll d) c s.caches idx hidx
        have hadd := invCount_addItem c d s.inv
        by_cases hdc : d = c
        · subst hdc
          have hmem : d ∈ s.caches.getD idx [] := hsafe ⟨rfl, hidx⟩
          have h1 := countS_pos_of_mem hmem
          have h2 := countS_removeAll_self d (s.caches.getD idx [])
          have h3 := getD_le_sum d s.caches idx hidx
          simp at hadd
          omega
        · simp only [if_neg hdc, add_zero] at hadd
          have h2 := countS_removeAll_ne c d (fun hh => hdc hh.symm) (s.caches.getD idx [])
          omega
      · simp only [applyOp, if_neg hidx]
        exact ⟨by trivial, hwf⟩
  | deposit idx =>
      cases hfk : firstKey s.inv with
      | none =>
          simp only [applyOp, hfk]
          exact ⟨by trivial, hwf⟩
      | some d =>
          by_cases hidx : idx < s.caches.length
          · simp only [applyOp, hfk, if_pos hidx]
            refine ⟨?_, WFInv_removeItem hwf d⟩
            unfold totalCount at hle ⊢
            simp only
            have hmod := sum_map_modifyIdx (fun l => l ++ [d]) c s.caches idx hidx
            simp only [] at hmod
            by_cases hdc : d = c
            · subst hdc
              have hpos := invCount_pos_of_firstKey hwf hfk
              have happ : countS d (s.caches.getD idx [] ++ [d]) =
                  countS d (s.caches.getD idx []) + 1 := by
                rw [countS_append, countS_singleton, if_pos rfl]
              have hrem : invCount d (removeItem d s.inv) = 0 := by
                rw [invCount_removeItem, if_pos rfl]
              omega
            · have happ : countS c (s.caches.getD idx [] ++ [d]) =
                  countS c (s.caches.getD idx []) := by
                rw [countS_append, countS_singleton, if_neg hdc, add_zero]
              have hrem : invCount c (removeItem d s.inv) = invCount c s.inv := by
                rw [invCount_removeItem, if_neg hdc]
              omega
          · simp only [applyOp, hfk, if_neg hidx]
            exact ⟨by trivial, hwf⟩

/-- C1 counterexample: coin conservation fails as stated.  With the inventory
holding coin identity c at count 2 and a single empty cache, one deposit — an
operation that mints nothing — drops the total from 2 to 1, because
`PlayerInventory.removeItem` deletes the whole entry (count 2) while only one
occurrence is pushed into the cache. -/
theorem deposit_breaks_conservation :
    SafeOps "c" { inv := [("c", 2)], caches := [[]] } [Op.deposit 0] ∧
    totalCount "c" { inv := [("c", 2)], caches := [[]] } = 2 ∧
    totalCount "c" (applyOps [Op.deposit 0] { inv := [("c", 2)], caches := [[]] }) = 1 := by
  decide

/-- C1 (amended): for every coin identity c, every state whose inventory is
well-formed (each stored entry has count at least 1) and in which the total
number of occurrences of c across the inventory and all caches is at most 1,
and every sequence of collect/deposit operations none of which mints a coin of
identity c (no collect of c aimed at a cache not currently holding c), the sum
`inventoryCount(c) + sum(cacheCount(c))` is the same before and after the
sequence. -/
theorem coin_conservation_of_bounded (c : String) (ops : List Op) (s : GState)
    (hwf : WFInv s.inv) (hle : totalCount c s ≤ 1) (hsafe : SafeOps c s ops) :
    totalCount c (applyOps ops s) = totalCount c s := by
  induction ops generalizing s with
  | nil => rfl
  | cons op ops ih =>
      obtain ⟨hf, hrest⟩ := hsafe
      have hstep := step_conservation c s op hwf hle hf
      have h1 : applyOps (op :: ops) s = applyOps ops (applyOp op s) := rfl
      rw [h1, ih (applyOp op s) hstep.2 (hstep.1 ▸ hle) hrest, hstep.1]

/-- C1 witness: the amended conservation theorem applied at a concrete state
(a single cache holding c, empty inventory) and sequence (collect c, then
deposit it back). -/
theorem coin_conservation_witness :
    WFInv (GState.mk [] [["c"]]).inv ∧
    totalCount "c" (GState.mk [] [["c"]]) ≤ 1 ∧
    SafeOps "c" (GState.mk [] [["c"]]) [Op.collect 0 "c", Op.deposit 0] ∧
    totalCount "c" (applyOps [Op.collect 0 "c", Op.deposit 0] (GState.mk [] [["c"]])) =
      totalCount "c" (GState.mk [] [["c"]]) :=
  ⟨by decide, by decide, by decide,
    coin_conservation_of_bounded "c" [Op.collect 0 "c", Op.deposit 0]
      (GState.mk [] [["c"]]) (by decide) (by decide) (by decide)⟩

/-- C2: `onCollect` on a coin absent from the cache is not a no-op.  Starting
from an empty inventory and a single cache holding no coins, collecting
identity c leaves the cache unchanged but increments the player's inventory
count for c from 0 to 1 — minting a coin out of thin air. -/
theorem collect_absent_increments_inventory :
    applyOp (Op.collect 0 "c") (GState.mk [] [[]]) = GState.mk [("c", 1)] [[]] ∧
    invCount "c" (GState.mk [] [[]]).inv = 0 ∧
    invCount "c" (applyOp (Op.collect 0 "c") (GState.mk [] [[]])).inv = 1 := by
  decide

/-! ## Cache generation (`spawnCache` over `cacheStorage`) -/

/-- Helper for `luck`: a deterministic accumulator hash of a string. -/
def strHash (s : String) : ℕ :=
  s.data.foldl (fun h c => h * 31 + c.toNat) 7

/-- Modelled from the spec: the deterministic generator `luck` is imported
from `./luck.ts`, whose source is not part of the repository snapshot.  Per
§4.1 of the spec it is a pure function from a string of discriminating values
to a reproducible value in [0,1) with no hidden mutable state; the concrete
hash is left open ("any well-distributed string/number hash producing a value
in [0,1)"), so a simple fold-based hash is used here. -/
def luck (s : String) : ℚ := ((strHash s % 1000 : ℕ) : ℚ) / 1000

lemma luck_nonneg (s : String) : 0 ≤ luck s := by
  unfold luck
  positivity

lemma luck_lt_one (s : String) : luck s < 1 := by
  unfold luck
  rw [div_lt_one (by norm_num)]
  have : strHash s % 1000 < 1000 := Nat.mod_lt _ (by norm_num)
  exact_mod_cast this

/-- The JS template `${i},${j}` used both as cache key and as the existence
draw's input (`[i, j].toString()`). -/
def cellKeyStr (i j : ℤ) : String := toString i ++ "," ++ toString j

/-- Source: `[cell.i, cell.j, "initialValue"].toString()`, the content draw's input. -/
def initialValueTag (i j : ℤ) : String := cellKeyStr i j ++ ",initialValue"

/-- Source: `OAKES_CLASSROOM.lat + cell.i * TILE_DEGREES`. -/
def latOf (i : ℤ) : ℚ := CLASSROOM_LAT + i * TILE_DEGREES

/-- Source: `OAKES_CLASSROOM.lng + cell.j * TILE_DEGREES`. -/
def lngOf (j : ℤ) : ℚ := CLASSROOM_LNG + j * TILE_DEGREES

/-- Source: `NumberUtils.roundToDecimals(num, 5)`: round to 5 decimal places
(half away from zero, like `toFixed`).  The cell coordinates fed to it are
exact multiples of 1e-4, for which the rounding is the identity. -/
def roundToDecimals (q : ℚ) : ℚ :=
  (if 0 ≤ q then (⌊q * 100000 + 1/2⌋ : ℚ) else (⌈q * 100000 - 1/2⌉ : ℚ)) / 100000

/-- The minted coin identity
`coin_(rounded lat),(rounded lng) #(index)` for ordinal `index` within the
cell's initial mint. -/
def coinId (i j : ℤ) (idx : ℕ) : String :=
  "coin_" ++ toString (roundToDecimals (latOf i)) ++ ","
    ++ toString (roundToDecimals (lngOf j)) ++ " #" ++ toString idx

/-- The coin count drawn in `spawnCache`:
`Math.min(Math.floor(luck([i, j, "initialValue"].toString()) * MAX_COINS_PER_CACHE) + 1, MAX_COINS_PER_CACHE)`. -/
def coinCountZ (i j : ℤ) : ℤ :=
  min (⌊luck (initialValueTag i j) * (MAX_COINS_PER_CACHE : ℚ)⌋ + 1) MAX_COINS_PER_CACHE

/-- Source: `Array.from({ length: coinCount }, (_, index) => ...)`: the initial coin
list of a fresh cache (a negative length yields an empty array, hence
`Int.toNat`). -/
def mkCoins (i j : ℤ) : List String :=
  (List.range (coinCountZ i j).toNat).map (coinId i j)

/-- Source: `cacheStorage`: cache key to the cache's coin list, in insertion order.
Only the coin data is modelled; markers and popups are presentation. -/
abbrev Store := List ((ℤ × ℤ) × List String)

/-- Source: `cacheStorage[cacheKey]` lookup.  In the final revision `getCell` returns
the cell `{i, j}` unmodified, so the key is just the argument pair. -/
def storeFind (k : ℤ × ℤ) : Store → Option (List String)
  | [] => none
  | (k2, v) :: t => if k2 = k then some v else storeFind k t

/-- Source: `spawnCache(i, j)` (final revision): if no cache is stored under the key,
draw the coin count, mint the coins and store the new cache; otherwise leave
the store untouched (the remainder of the source function only materializes
the marker). -/
def spawnCache (i j : ℤ) (store : Store) : Store :=
  match storeFind (i, j) store with
  | some _ => store
  | none => store ++ [((i, j), mkCoins i j)]

lemma storeFind_append_self (k : ℤ × ℤ) (v : List String) (s : Store)
    (h : storeFind k s = none) : storeFind k (s ++ [(k, v)]) = some v := by
  induction s with
  | nil => simp [storeFind]
  | cons kv t ih =>
      obtain ⟨k2, v2⟩ := kv
      by_cases hk : k2 = k
      · simp [storeFind, hk] at h
      · simp [storeFind, hk] at h ⊢
        exact ih h

lemma spawnCache_idem (i j : ℤ) (s : Store) :
    spawnCache i j (spawnCache i j s) = spawnCache i j s := by
  unfold spawnCache
  cases hf : storeFind (i, j) s with
  | some v => simp [hf]
  | none => simp [hf, storeFind_append_self _ _ _ hf]

/-- C3: generation is idempotent against the same store: iterating
`spawnCache(i, j)` any positive number of times produces exactly the store of
a single call — after the call that creates the cache, no later call re-rolls
the generator or overwrites the stored coin list. -/
theorem spawnCache_idempotent_iterate (n : ℕ) (i j : ℤ) (s : Store) :
    Nat.iterate (spawnCache i j) (n + 1) s = spawnCache i j s := by
  induction n with
  | zero => rfl
  | succ m ih =>
      have h : Nat.iterate (spawnCache i j) (m + 2) s =
          spawnCache i j (Nat.iterate (spawnCache i j) (m + 1) s) :=
        Function.iterate_succ_apply' (spawnCache i j) (m + 1) s
      rw [h, ih, spawnCache_idem]

/-- C4: generation is deterministic across runs: for a fixed cell (i, j),
running `spawnCache` against any two stores not yet holding that cell (in
particular two fresh empty stores) creates caches with the same coin list
`mkCoins i j`, a pure function of the cell alone — the generator draws only
from the cell tag, with no hidden advancing state. -/
theorem spawnCache_deterministic (i j : ℤ) (s1 s2 : Store)
    (h1 : storeFind (i, j) s1 = none) (h2 : storeFind (i, j) s2 = none) :
    storeFind (i, j) (spawnCache i j s1) = some (mkCoins i j) ∧
    storeFind (i, j) (spawnCache i j s2) = some (mkCoins i j) := by
  unfold spawnCache
  rw [h1, h2]
  exact ⟨storeFind_append_self _ _ _ h1, storeFind_append_self _ _ _ h2⟩

/-- C4 witness: two independent runs at cell (0, 0), one on the empty store,
one on a store holding an unrelated cache, agree on the created coin list. -/
theorem spawnCache_deterministic_witness :
    storeFind ((0 : ℤ), (0 : ℤ)) [] = none ∧
    storeFind ((0 : ℤ), (0 : ℤ)) [(((5 : ℤ), (5 : ℤ)), ["x"])] = none ∧
    (storeFind ((0 : ℤ), (0 : ℤ)) (spawnCache 0 0 []) = some (mkCoins 0 0) ∧
      storeFind ((0 : ℤ), (0 : ℤ))
        (spawnCache 0 0 [(((5 : ℤ), (5 : ℤ)), ["x"])]) = some (mkCoins 0 0)) :=
  ⟨rfl, by decide,
    spawnCache_deterministic 0 0 [] [(((5 : ℤ), (5 : ℤ)), ["x"])] rfl (by decide)⟩

/-- C7: for every cell whose spawn check passes
(`luck([i, j].toString()) < CACHE_SPAWN_PROBABILITY`), the initial coin count
minted for the cache — the length of `mkCoins i j`, which is the drawn
`coinCountZ i j` — lies in the inclusive range [1, MAX_COINS_PER_CACHE] =
{1, 2, 3}.  `mkCoins` is a pure function of the cell, so the value is the same
on every re-run. -/
theorem coinCount_range (i j : ℤ)
    (_h : luck (cellKeyStr i j) < CACHE_SPAWN_PROBABILITY) :
    1 ≤ (mkCoins i j).length ∧ (mkCoins i j).length ≤ 3 ∧
    (mkCoins i j).length = (coinCountZ i j).toNat := by
  have h0 : (0 : ℚ) ≤ luck (initialValueTag i j) := luck_nonneg _
  have h1 : luck (initialValueTag i j) < 1 := luck_lt_one _
  have hf0 : 0 ≤ ⌊luck (initialValueTag i j) * (3 : ℚ)⌋ :=
    Int.floor_nonneg.mpr (by positivity)
  have hf2 : ⌊luck (initialValueTag i j) * (3 : ℚ)⌋ < 3 :=
    Int.floor_lt.mpr (by push_cast; nlinarith)
  have hlen : (mkCoins i j).length = (coinCountZ i j).toNat := by
    simp [mkCoins]
  have hcc : 1 ≤ coinCountZ i j ∧ coinCountZ i j ≤ 3 := by
    unfold coinCountZ MAX_COINS_PER_CACHE
    push_cast
    omega
  refine ⟨?_, ?_, hlen⟩ <;> omega

/-- C7 witness: at cell (2, 1) the spawn check passes and the minted coin
count is in {1, 2, 3}. -/
lemma luck_cell_2_1 : luck (cellKeyStr 2 1) < CACHE_SPAWN_PROBABILITY := by
  have h : strHash (cellKeyStr 2 1) % 1000 = 0 := by decide
  unfold luck CACHE_SPAWN_PROBABILITY
  rw [h]
  norm_num

theorem coinCount_range_witness :
    luck (cellKeyStr 2 1) < CACHE_SPAWN_PROBABILITY ∧
    (1 ≤ (mkCoins 2 1).length ∧ (mkCoins 2 1).length ≤ 3 ∧
      (mkCoins 2 1).length = (coinCountZ 2 1).toNat) :=
  ⟨luck_cell_2_1, coinCount_range 2 1 luck_cell_2_1⟩

/-! ## Grid mapper (`getPlayerCell`) -/

/-- Source: `getPlayerCell(lat, lng)`:
`Math.floor((lat - OAKES_CLASSROOM.lat) / TILE_DEGREES)` on each axis
independently (`Math.floor` rounds toward negative infinity). -/
def getPlayerCell (lat lng : ℚ) : ℤ × ℤ :=
  (⌊(lat - CLASSROOM_LAT) / TILE_DEGREES⌋, ⌊(lng - CLASSROOM_LNG) / TILE_DEGREES⌋)

lemma floor_cell_bounds (o step x : ℚ) (hstep : 0 < step) :
    o + (⌊(x - o) / step⌋ : ℚ) * step ≤ x ∧
    x < o + ((⌊(x - o) / step⌋ : ℚ) + 1) * step := by
  have h1 : (⌊(x - o) / step⌋ : ℚ) ≤ (x - o) / step := Int.floor_le _
  have h2 : (x - o) / step < (⌊(x - o) / step⌋ : ℚ) + 1 := Int.lt_floor_add_one _
  constructor
  · have := (le_div_iff₀ hstep).mp h1
    linarith
  · have := (div_lt_iff₀ hstep).mp h2
    linarith

lemma tile_pos : (0 : ℚ) < TILE_DEGREES := by norm_num [TILE_DEGREES]

/-- C8: `getPlayerCell` floor-divides the offset from the origin by the step
size independently per axis, rounding toward negative infinity: the returned
cell (i, j) always encloses the position
(`origin + i·step ≤ pos < origin + (i+1)·step` on each axis, for positive and
negative offsets alike), and a position exactly on a cell's lower edge maps to
that cell, not the one below. -/
theorem getPlayerCell_floor_correct :
    (∀ lat lng : ℚ,
      CLASSROOM_LAT + ((getPlayerCell lat lng).1 : ℚ) * TILE_DEGREES ≤ lat ∧
      lat < CLASSROOM_LAT + (((getPlayerCell lat lng).1 : ℚ) + 1) * TILE_DEGREES ∧
      CLASSROOM_LNG + ((getPlayerCell lat lng).2 : ℚ) * TILE_DEGREES ≤ lng ∧
      lng < CLASSROOM_LNG + (((getPlayerCell lat lng).2 : ℚ) + 1) * TILE_DEGREES) ∧
    (∀ k l : ℤ,
      getPlayerCell (CLASSROOM_LAT + (k : ℚ) * TILE_DEGREES)
        (CLASSROOM_LNG + (l : ℚ) * TILE_DEGREES) = (k, l)) := by
  constructor
  · intro lat lng
    have hlat := floor_cell_bounds CLASSROOM_LAT TILE_DEGREES lat tile_pos
    have hlng := floor_cell_bounds CLASSROOM_LNG TILE_DEGREES lng tile_pos
    exact ⟨hlat.1, hlat.2, hlng.1, hlng.2⟩
  · intro k l
    have hz : TILE_DEGREES ≠ 0 := ne_of_gt tile_pos
    have hk : (CLASSROOM_LAT + (k : ℚ) * TILE_DEGREES - CLASSROOM_LAT) / TILE_DEGREES
        = (k : ℚ) := by
      field_simp
    have hl : (CLASSROOM_LNG + (l : ℚ) * TILE_DEGREES - CLASSROOM_LNG) / TILE_DEGREES
        = (l : ℚ) := by
      field_simp
    unfold getPlayerCell
    rw [hk, hl, Int.floor_intCast, Int.floor_intCast]

/-! ## Neighborhood pass (`regenerateCachesAroundPlayer`) -/

/-- The integers `lo, lo + 1, …, lo + len - 1`. -/
def spanZ (lo : ℤ) (len : ℕ) : List ℤ :=
  (List.range len).map (fun (a : ℕ) => lo + (a : ℤ))

/-- The cells visited by the two nested loops of
`regenerateCachesAroundPlayer`: `i` from `playerI - NEIGHBORHOOD_SIZE` to
`playerI + NEIGHBORHOOD_SIZE` inclusive (17 values), and likewise `j`. -/
def neighborhoodCells (pi pj : ℤ) : List (ℤ × ℤ) :=
  (spanZ (pi - NEIGHBORHOOD_SIZE) 17).flatMap
    (fun i => (spanZ (pj - NEIGHBORHOOD_SIZE) 17).map (fun j => (i, j)))

/-- The body of the nested loops: call `spawnCache(i, j)` when a cache is
already stored for the cell, or when the existence draw passes the spawn
probability; otherwise leave the store as is. -/
def ensureCache (i j : ℤ) (store : Store) : Store :=
  if (storeFind (i, j) store).isSome then spawnCache i j store
  else if luck (cellKeyStr i j) < CACHE_SPAWN_PROBABILITY then spawnCache i j store
  else store

/-- Source: `regenerateCachesAroundPlayer(lat, lng)` restricted to its effect on
`cacheStorage`: run the loop body over the full neighborhood of the player's
current cell.  (The trailing `updateCacheVisibility` call does not touch the
store.) -/
def regenerateCachesAroundPlayer (lat lng : ℚ) (store : Store) : Store :=
  (neighborhoodCells (getPlayerCell lat lng).1 (getPlayerCell lat lng).2).foldl
    (fun st c => ensureCache c.1 c.2 st) store

lemma mem_spanZ (len : ℕ) (lo x : ℤ) : x ∈ spanZ lo len ↔ lo ≤ x ∧ x < lo + len := by
  induction len with
  | zero =>
      simp only [spanZ, List.range_zero, List.map_nil, List.not_mem_nil, false_iff]
      push_cast
      omega
  | succ n ih =>
      have hsp : spanZ lo (n + 1) = spanZ lo n ++ [lo + (n : ℤ)] := by
        unfold spanZ
        rw [List.range_succ, List.map_append]
        rfl
      rw [hsp, List.mem_append, ih, List.mem_singleton]
      push_cast
      omega

lemma mem_neighborhoodCells (pi pj i j : ℤ) :
    (i, j) ∈ neighborhoodCells pi pj ↔
      pi - 8 ≤ i ∧ i ≤ pi + 8 ∧ pj - 8 ≤ j ∧ j ≤ pj + 8 := by
  have hN : NEIGHBORHOOD_SIZE = 8 := rfl
  simp only [neighborhoodCells, List.mem_flatMap, List.mem_map, Prod.mk.injEq]
  constructor
  · rintro ⟨x, hx, y, hy, rfl, rfl⟩
    rw [mem_spanZ] at hx hy
    rw [hN] at hx hy
    push_cast at hx hy
    omega
  · intro h
    refine ⟨i, ?_, j, ?_, rfl, rfl⟩ <;> rw [mem_spanZ, hN] <;> push_cast <;> omega

/-- C5: on a cell change the neighborhood pass applies the ensure step to
exactly the cells within Chebyshev distance 8 of the player's new cell: the
fold underlying `regenerateCachesAroundPlayer` runs over `neighborhoodCells`,
and a cell (i, j) is in that list iff
`max |i - playerI| |j - playerJ| ≤ 8` — the full 17×17 block centered on the
new cell, independent of any previous neighborhood. -/
theorem regenerate_covers_chebyshev (lat lng : ℚ) (i j : ℤ) :
    (∀ store : Store,
      regenerateCachesAroundPlayer lat lng store =
        (neighborhoodCells (getPlayerCell lat lng).1
          (getPlayerCell lat lng).2).foldl (fun st c => ensureCache c.1 c.2 st) store) ∧
    ((i, j) ∈ neighborhoodCells (getPlayerCell lat lng).1 (getPlayerCell lat lng).2 ↔
      max (i - (getPlayerCell lat lng).1).natAbs
        (j - (getPlayerCell lat lng).2).natAbs ≤ 8) := by
  refine ⟨fun store => rfl, ?_⟩
  rw [mem_neighborhoodCells]
  omega

/-! ## Visibility pass (`updateCacheVisibility`) -/

/-- Source: `MAX_VISIBLE_DISTANCE = 0.001`. -/
def MAX_VISIBLE_DISTANCE : ℚ := 1 / 1000

/-- A cache as the visibility pass sees it: its coin list plus whether its
marker is currently on the map. -/
structure VCache where
  coins : List String
  visible : Bool
  deriving DecidableEq

/-- Source: `cacheStorage` together with each cache's presentation state. -/
abbrev VStore := List ((ℤ × ℤ) × VCache)

/-- Source: `updateCacheVisibility(playerLat, playerLng)`: for every stored cache,
recompute its position from its key, compare the player's distance against
`MAX_VISIBLE_DISTANCE`, and add or remove the marker accordingly.  The source
compares `Math.sqrt(dx² + dy²) ≤ MAX_VISIBLE_DISTANCE`; with both sides
nonnegative this is equivalent to `dx² + dy² ≤ MAX_VISIBLE_DISTANCE²`, the
form used here to stay in the rationals. -/
def updateCacheVisibility (playerLat playerLng : ℚ) (store : VStore) : VStore :=
  store.map (fun kv =>
    (kv.1,
      { coins := kv.2.coins,
        visible := decide
          ((playerLat - (CLASSROOM_LAT + (kv.1.1 : ℚ) * TILE_DEGREES)) ^ 2 +
            (playerLng - (CLASSROOM_LNG + (kv.1.2 : ℚ) * TILE_DEGREES)) ^ 2 ≤
              MAX_VISIBLE_DISTANCE ^ 2) }))

/-- C9: the visibility pass never mutates cache contents and never removes a
cache from the store: for every player position, the keys and coin lists of
`updateCacheVisibility`'s output are exactly those of its input (so hiding and
re-showing a cache leaves its coin collection identical); only the `visible`
presentation flag changes. -/
theorem updateCacheVisibility_preserves_coins (playerLat playerLng : ℚ) (store : VStore) :
    (updateCacheVisibility playerLat playerLng store).map (fun kv => (kv.1, kv.2.coins)) =
      store.map (fun kv => (kv.1, kv.2.coins)) := by
  unfold updateCacheVisibility
  rw [List.map_map]
  rfl

/-! ## Persistence (`loadGameState`) -/

/-- The triple the game persists in `localStorage` under `"gameState"`. -/
structure SavedState where
  playerPosition : ℚ × ℚ
  playerInventory : List (String × Nat)
  movementHistory : List (ℚ × ℚ)
  deriving DecidableEq

/-- Player-facing state restored by `loadGameState`: marker position,
inventory, movement polyline. -/
structure GameView where
  pos : ℚ × ℚ
  inv : Inv
  history : List (ℚ × ℚ)
  deriving DecidableEq

/-- The state the game starts from before any load: player at the classroom
origin, empty inventory, empty movement history. -/
def initialGameView : GameView :=
  { pos := (CLASSROOM_LAT, CLASSROOM_LNG), inv := [], history := [] }

/-- The restore loop: `for (let i = 0; i < count; i++) playerInventory.addItem(coinId)`. -/
def addTimes (n : ℕ) (c : String) (inv : Inv) : Inv :=
  match n with
  | 0 => inv
  | m + 1 => addTimes m c (addItem c inv)

/-- Rebuild the inventory from the saved count map, entry by entry. -/
def restoreInv (entries : List (String × Nat)) : Inv :=
  entries.foldl (fun acc kv => addTimes kv.2 kv.1 acc) []

/-- Source: `loadGameState()`.  Its input is the persisted slot: `none` models a
missing blob (`localStorage.getItem` returned null, the `if` is skipped and
the current state is kept); `some (Except.error e)` models a present but
corrupt blob, on which the JS builtin `JSON.parse` throws — the source wraps
the call in no try/catch, so the exception escapes `loadGameState`, modelled
as `Except.error`; `some (Except.ok st)` models a well-formed blob, which is
restored. -/
def loadGameState (blob : Option (Except String SavedState)) (current : GameView) :
    Except String GameView :=
  match blob with
  | none => Except.ok current
  | some (Except.error e) => Except.error e
  | some (Except.ok st) =>
      Except.ok
        { pos := st.playerPosition,
          inv := restoreInv st.playerInventory,
          history := st.movementHistory }

/-- C6: loading a missing blob is indeed recoverable — the game keeps its
initial origin state — but loading a corrupt blob is fatal: `JSON.parse`'s
exception propagates out of `loadGameState` uncaught, instead of being
treated as "no saved state". -/
theorem loadGameState_corrupt_throws :
    loadGameState none initialGameView = Except.ok initialGameView ∧
    loadGameState (some (Except.error "SyntaxError: Unexpected token")) initialGameView =
      Except.error "SyntaxError: Unexpected token" :=
  ⟨rfl, rfl⟩

end Demo3

namespace Demo3.Rev1

/-!  The first revision of `main.ts`: its `spawnCache` converts the cell to
geographic coordinates by writing **into the shared flyweight cell object**
(`cell.i = origin.lat + cell.i * TILE_DEGREES;
cell.j = origin.lat + cell.j * TILE_DEGREES;` — `origin.lat` on both axes),
corrupting the `cellCache` registry. -/

/-- The `cellCache` registry: argument key (i, j) to the stored cell object's
current field values (rationals, since the mutation stores coordinates). -/
abbrev Reg := List ((ℤ × ℤ) × (ℚ × ℚ))

/-- Registry lookup by the string key built from the arguments. -/
def regFind (k : ℤ × ℤ) : Reg → Option (ℚ × ℚ)
  | [] => none
  | (k2, v) :: t => if k2 = k then some v else regFind k t

/-- Overwrite the fields of the cell object stored under a key (mutating the
shared object in place). -/
def regSet (k : ℤ × ℤ) (v : ℚ × ℚ) : Reg → Reg
  | [] => []
  | (k2, v2) :: t => if k2 = k then (k2, v) :: t else (k2, v2) :: regSet k v t

/-- Source: `getCell(i, j)` (revision 1, identical in all revisions): return the cell
object stored under key `i,j`, creating `{ i, j }` on first use.  Returns the
cell's current field values together with the possibly-extended registry. -/
def getCell (i j : ℤ) (reg : Reg) : (ℚ × ℚ) × Reg :=
  match regFind (i, j) reg with
  | some c => (c, reg)
  | none => (((i : ℚ), (j : ℚ)), reg ++ [((i, j), ((i : ℚ), (j : ℚ)))])

/-- Source: `spawnCache(i, j)` (revision 1), restricted to its effect on the cell
registry: after computing the bounds it executes
`cell.i = origin.lat + cell.i * TILE_DEGREES;
cell.j = origin.lat + cell.j * TILE_DEGREES;`, overwriting the shared cell's
fields (with `origin.lat` used for both, as in the source). -/
def spawnCache (i j : ℤ) (reg : Reg) : Reg :=
  let cr := getCell i j reg
  regSet (i, j)
    (CLASSROOM_LAT + cr.1.1 * TILE_DEGREES, CLASSROOM_LAT + cr.1.2 * TILE_DEGREES) cr.2

/-- C10: the flyweight registry is corrupted by `spawnCache`.  After
`spawnCache(0, 0)` on a fresh registry, `getCell(0, 0)` no longer returns a
cell with fields (0, 0): both fields now hold 36.989
(`origin.lat + 0 * TILE_DEGREES`, with `origin.lat` mistakenly used for the j
field as well). -/
theorem spawnCache_mutates_flyweight_cell :
    (getCell 0 0 (spawnCache 0 0 [])).1 = ((36989 / 1000 : ℚ), (36989 / 1000 : ℚ)) ∧
    (getCell 0 0 (spawnCache 0 0 [])).1 ≠ ((0 : ℚ), (0 : ℚ)) := by
  have hcell : (getCell 0 0 (spawnCache 0 0 [])).1 = (CLASSROOM_LAT, CLASSROOM_LAT) := by
    simp [spawnCache, getCell, regFind, regSet]
  rw [hcell]
  constructor <;> norm_num [CLASSROOM_LAT, Prod.ext_iff]

end Demo3.Rev1
